import Mathlib

/-!
Verification of the PyCorderPlus real-time acquisition data pipeline.

The definitions below are shallow embeddings of the Python source of the
repository (amplifier.py, modbase.py, amp_neorec/neorec.py,
amp_neorec/amplifier_neorec.py).  Numpy arrays are modelled as `List`s
(matrices as lists of channel rows), floating-point sample data as `ℚ`
(the properties proved are exact algebraic identities performed by the
same operation sequences), 32/64-bit hardware counters as `ℕ` with
explicit `% 2^32` where the width matters, and Python exceptions as
explicit result values.
-/

set_option autoImplicit false
set_option maxRecDepth 8000

namespace PyCorder

/-!
### C4 — trigger decimation by bitwise-OR reduction

Source (`amplifier.py`, line 599):
`np.bitwise_or.reduce(d[1][:].reshape(-1, self.binning), axis=1)` —
the trigger row is cut into consecutive windows of `binning` values and
each window is reduced with bitwise OR.
-/

/-- Helper for the OR-reduction over consecutive windows: `c` counts the
samples still missing in the current window, `acc` accumulates the OR. -/
def triggerDecimateAux (k : ℕ) : List ℕ → ℕ → ℕ → List ℕ
  | [], _, _ => []
  | x :: xs, c, acc =>
    if c ≤ 1 then Nat.lor acc x :: triggerDecimateAux k xs k 0
    else triggerDecimateAux k xs (c - 1) (Nat.lor acc x)

/-- Embedding of `np.bitwise_or.reduce(triggers.reshape(-1, k), axis=1)`:
the trigger vector is reduced window-by-window with bitwise OR. -/
def triggerDecimate (k : ℕ) (l : List ℕ) : List ℕ := triggerDecimateAux k l k 0

/-!
### C7 — bounded stage queue with drop-on-overflow

Source (`modbase.py`): `ModuleBase.__init__` creates
`self._input_queue = queue.Queue(queuesize)` with `queuesize=20` by
default; `_transmit_data` does `self._input_queue.put(data, False)` and on
the `Full` exception sends one overflow `ModuleEvent` and drops the block.
-/

/-- Default receiver input queue size from `ModuleBase.__init__`. -/
def defaultQueueSize : ℕ := 20

/-- State of a receiver input queue: fixed capacity plus queued blocks
(blocks are abstracted as natural-number identifiers). -/
structure StageQueue where
  cap : ℕ
  items : List ℕ
deriving DecidableEq

/-- Embedding of `ModuleBase._transmit_data`: a non-blocking put that on a
full queue drops the new block and reports one overflow event (second
component counts the overflow events sent). -/
def transmitData (q : StageQueue) (x : ℕ) : StageQueue × ℕ :=
  if q.items.length < q.cap then ({ q with items := q.items ++ [x] }, 0) else (q, 1)

/-- Deliver a whole list of blocks to the queue with no dequeue in between,
summing the overflow events. -/
def transmitAll (q : StageQueue) : List ℕ → StageQueue × ℕ
  | [] => (q, 0)
  | x :: xs =>
    let p := transmitData q x
    let r := transmitAll p.1 xs
    (r.1, p.2 + r.2)

/-!
### C8 — consecutive-timeout handling in the acquisition loop

Source (`amplifier.py`, lines 565-580): on `d is None` the counter
`acquisitionTimeoutCounter` is incremented and, once it exceeds 100, it is
reset and `ModuleError("connection to hardware is broken!")` is raised;
on data the counter is reset to 0.
Source (`amp_neorec/amplifier_neorec.py`, lines 421-433): the NeoRec
variant uses threshold 500, resets the counter and sets
`self.amp.connected = False`, but the `raise` is commented out — no error
is raised there.
-/

/-- Result of one poll iteration of `process_output`. -/
inductive PollOutcome where
  | fatalError
  | noOutput
  | proceed
deriving DecidableEq

/-- Embedding of the timeout logic of `AMP_ActiChamp.process_output`:
returns the new `acquisitionTimeoutCounter` and the outcome. -/
def champPollStep (counter : ℕ) (hasData : Bool) : ℕ × PollOutcome :=
  if hasData then (0, PollOutcome.proceed)
  else if counter + 1 > 100 then (0, PollOutcome.fatalError)
  else (counter + 1, PollOutcome.noOutput)

/-- Run `champPollStep` over a sequence of poll results. -/
def champPollRun (c : ℕ) : List Bool → ℕ × List PollOutcome
  | [] => (c, [])
  | d :: ds =>
    let p := champPollStep c d
    let r := champPollRun p.1 ds
    (r.1, p.2 :: r.2)

/-- Embedding of the timeout logic of `AMP_NeoRec.process_output`: the state
is `(acquisitionTimeoutCounter, amp.connected)`; past the threshold the
counter is reset and the device is marked disconnected, but no error is
raised (the `raise` statement is commented out in the source). -/
def neorecPollStep (st : ℕ × Bool) (hasData : Bool) : (ℕ × Bool) × PollOutcome :=
  if hasData then ((0, st.2), PollOutcome.proceed)
  else if st.1 + 1 > 500 then ((0, false), PollOutcome.noOutput)
  else ((st.1 + 1, st.2), PollOutcome.noOutput)

/-- Run `neorecPollStep` over a sequence of poll results. -/
def neorecPollRun (st : ℕ × Bool) : List Bool → (ℕ × Bool) × List PollOutcome
  | [] => (st, [])
  | d :: ds =>
    let p := neorecPollStep st d
    let r := neorecPollRun p.1 ds
    (r.1, p.2 :: r.2)

/-!
### C9 — double battery check in the start procedure

Source (`amplifier.py`, `AMP_ActiChamp.process_start`, lines 399-456):
`amp.open()`; `_check_battery()` (raises `ModuleError` when the battery
state is ≥ 2, i.e. `state < 2` is the ok-condition returned by
`_check_battery`); `amp.setup(...)`; a no-input-channels check;
`_check_battery()` again; `amp.start()`.
Source (`modbase.py`, `ModuleBase.start`, lines 394-418): `process_start`
runs inside `try`; on exception one error event is sent via
`send_exception` and `start` returns without starting the receivers or the
worker thread; otherwise `_running` is set and the worker thread starts.
-/

/-- Hardware-facing actions performed by `process_start`, in order. -/
inductive StartAction where
  | openAmp
  | batteryCheck
  | setupAmp
  | startAmp
deriving DecidableEq

/-- Errors `process_start` can raise. -/
inductive StartError where
  | batteryLow
  | noChannels
deriving DecidableEq

/-- Embedding of `AMP_ActiChamp.process_start`: `s1`/`s2` are the two
battery states read by the two `_check_battery` calls (ok iff `< 2`),
`hasChannels` tells whether any input channel is selected.  Returns the
action trace performed and the error raised, if any. -/
def champProcessStart (s1 s2 : ℕ) (hasChannels : Bool) :
    List StartAction × Option StartError :=
  if s1 < 2 then
    if hasChannels then
      if s2 < 2 then
        ([StartAction.openAmp, StartAction.batteryCheck, StartAction.setupAmp,
          StartAction.batteryCheck, StartAction.startAmp], none)
      else
        ([StartAction.openAmp, StartAction.batteryCheck, StartAction.setupAmp,
          StartAction.batteryCheck], some StartError.batteryLow)
    else
      ([StartAction.openAmp, StartAction.batteryCheck, StartAction.setupAmp],
        some StartError.noChannels)
  else
    ([StartAction.openAmp, StartAction.batteryCheck], some StartError.batteryLow)

/-- Embedding of `ModuleBase.start` around `process_start`: returns
`(running, workerStarted, errorEventsSent)`. -/
def moduleStart (s1 s2 : ℕ) (hasChannels : Bool) : Bool × Bool × ℕ :=
  match (champProcessStart s1 s2 hasChannels).2 with
  | some _ => (false, false, 1)
  | none => (true, true, 0)

/-!
### C10 — warm-up skip counter and session-relative error baseline

Source (`amplifier.py`): `process_start` sets `skip_counter = 5` and
`initialErrorCount = -1` (lines 453-456); `process_output` (lines 582-588)
discards a successfully read block while `skip_counter > 0` (decrementing
it, returning `None`) and captures `initialErrorCount` from
`amp.getDeviceStatus()[1]` on the first block processed after the warm-up;
`process_stop` (line 502) reports `getDeviceStatus()[1] - initialErrorCount`.
-/

/-- One successful read cycle of the warm-up logic: state is
`(skip_counter, initialErrorCount)`, input is the device error count that
`getDeviceStatus` would report at this cycle; the `Bool` tells whether an
output block is emitted for this cycle. -/
def warmupStep (st : ℕ × ℤ) (e : ℤ) : (ℕ × ℤ) × Bool :=
  if 0 < st.1 then ((st.1 - 1, st.2), false)
  else if st.2 < 0 then ((0, e), true)
  else ((0, st.2), true)

/-- Fold the warm-up logic over a sequence of successful reads. -/
def warmupRun (st : ℕ × ℤ) : List ℤ → (ℕ × ℤ) × List Bool
  | [] => (st, [])
  | e :: es =>
    let p := warmupStep st e
    let r := warmupRun p.1 es
    (r.1, p.2 :: r.2)

/-- State set by `process_start`: `skip_counter = 5`,
`initialErrorCount = -1`. -/
def champStartWarmup : ℕ × ℤ := (5, -1)

/-- Embedding of the error report of `process_stop`: device error count at
stop minus the captured baseline. -/
def processStopErrors (deviceErrors : ℤ) (st : ℕ × ℤ) : ℤ := deviceErrors - st.2

/-!
### C2 — 32-bit sample-counter wrap handling in `NeoRec.read`

Source (`amp_neorec/neorec.py`, lines 686-697):
`sct = np.array(sctTemp, np.uint64) + self.sampleCounterAdjust`;
`wrap = np.nonzero(sctTemp == 0)`;
`if (wrap[1].size > 0) and sct[0][0]:` then with `wrapIndex = wrap[1][0]`
and `adjust = 2^32` it does `self.sampleCounterAdjust += adjust` and
`sct[:, wrapIndex:] += adjust`.
-/

/-- Width constant of the wrap-prone hardware sample counter. -/
def U32 : ℕ := 2 ^ 32

/-- Index of the first zero entry, modelling `np.nonzero(sctTemp == 0)`
followed by taking `wrap[1][0]`. -/
def firstZeroIdx : List ℕ → Option ℕ
  | [] => none
  | v :: rest => if v = 0 then some 0 else (firstZeroIdx rest).map (· + 1)

/-- Add `a` to every entry from position `i` on, modelling
`sct[:, wrapIndex:] += adjust`. -/
def addFromIdx (a : ℕ) : ℕ → List ℕ → List ℕ
  | 0, l => l.map (· + a)
  | _ + 1, [] => []
  | i + 1, x :: rest => x :: addFromIdx a i rest

/-- Embedding of the wrap handling of one `NeoRec.read` call: `adjust` is
the session state `sampleCounterAdjust`, `raw` the uint32 counter entries
of the current buffer.  Returns the emitted 64-bit counters and the new
adjustment. -/
def neoRecAdjustCounters (adjust : ℕ) (raw : List ℕ) : List ℕ × ℕ :=
  let sct := raw.map (· + adjust)
  match firstZeroIdx raw with
  | none => (sct, adjust)
  | some wrapIndex =>
    if sct.headI = 0 then (sct, adjust)
    else (addFromIdx U32 wrapIndex sct, adjust + U32)

/-- Process a whole session of buffers, threading `sampleCounterAdjust`. -/
def neoRecReadSession (adjust : ℕ) : List (List ℕ) → List ℕ × ℕ
  | [] => ([], adjust)
  | b :: rest =>
    let p := neoRecAdjustCounters adjust b
    let q := neoRecReadSession p.2 rest
    (p.1 ++ q.1, q.2)

/-- A buffer of `n` consecutive uint32 counter values starting at the true
(unbounded) counter value `c`. -/
def consecBuffer (c n : ℕ) : List ℕ := (List.range n).map (fun k => (c + k) % U32)

/-- Cut a consecutive counter stream starting at `c` into buffers of the
given sizes. -/
def buffersFrom (c : ℕ) : List ℕ → List (List ℕ)
  | [] => []
  | n :: rest => consecBuffer c n :: buffersFrom (c + n) rest

/-- Boundary condition: no buffer (nor the session end) starts exactly at a
counter-wrap point, except a session starting at counter 0. -/
def okStarts : ℕ → List ℕ → Prop
  | c, [] => c % U32 ≠ 0 ∨ c = 0
  | c, n :: rest => (c % U32 ≠ 0 ∨ c = 0) ∧ okStarts (c + n) rest

/-!
### C6 — per-consumer copies in the worker-thread hand-off

Source (`modbase.py`, `ModuleBase._worker_thread`, lines 672-679):
`for idx, receiver in enumerate(reversed(self._receivers)):` —
`receiver._transmit_data(data)` when `idx == 0` (the last receiver in
`self._receivers`), `receiver._transmit_data(copy.deepcopy(data))`
otherwise.
Source (`modbase.py`, `EEG_DataBlock.__copy__`, lines 265-282): the custom
shallow copy shares the numpy data arrays and deep-copies channel
properties, markers and impedances.

Mutable Python objects are modelled by identifiers: a block holds one
identifier per mutable field, `deepcopy` allocates fresh identifiers, and
two blocks share mutable state iff their identifier lists intersect.
-/

/-- Identifiers of the mutable objects referenced by one `EEG_DataBlock`. -/
structure BlockObj where
  eegChannels : ℕ
  triggerChannel : ℕ
  sampleChannel : ℕ
  channelProps : ℕ
  markers : ℕ
  impedances : ℕ
deriving DecidableEq, Inhabited

/-- All mutable-object identifiers held by a block. -/
def blockIds (b : BlockObj) : List ℕ :=
  [b.eegChannels, b.triggerChannel, b.sampleChannel, b.channelProps,
    b.markers, b.impedances]

/-- Model of `copy.deepcopy`: every field gets a fresh identifier
(allocated from `base`). -/
def deepcopyBlock (base : ℕ) (b : BlockObj) : BlockObj :=
  ⟨base, base + 1, base + 2, base + 3, base + 4, base + 5⟩

/-- Model of `EEG_DataBlock.__copy__`: the three data arrays are shared
with the original, while channel properties, markers and impedances are
deep-copied. -/
def shallowCopyBlock (base : ℕ) (b : BlockObj) : BlockObj :=
  ⟨b.eegChannels, b.triggerChannel, b.sampleChannel, base, base + 1, base + 2⟩

/-- Embedding of the delivery loop of `_worker_thread`: entry `j` of the
result is the block handed to `self._receivers[j]`.  Enumerating
`reversed(receivers)` with `idx == 0` receiving the original and every
other `idx` a deep copy means receiver `j` gets the original iff
`j = n - 1`, and the fresh identifiers of the copy for reversed index
`idx` start at `base + 6 * idx`. -/
def distributeBlocks (base n : ℕ) (b : BlockObj) : List BlockObj :=
  ((List.range n).map
      (fun idx => if idx = 0 then b else deepcopyBlock (base + 6 * idx) b)).reverse

/-!
### C1 / C3 — decimating anti-aliasing filter and counter decimation

Source (`amplifier.py`, `process_output`, lines 591-602): when
`self.binning > 1`,
`filtered, self.aliasing_zi = signal.lfilter(b, a, d[0], zi=self.aliasing_zi)`
runs the IIR recurrence per channel carrying the state `zi` forward, then
`self.eeg_data.eeg_channels = filtered[:, self.binningoffset::self.binning]`
subsamples, and
`self.eeg_data.sample_channel = d[2][:, self.binningoffset::self.binning] / self.binning`
subsamples the counter row and divides it by the binning factor.
`self.binningoffset` is set to 0 at setup (`_prepare_mode_and_filters`,
line 325) and never reassigned anywhere else.

`signal.lfilter` is the direct-form-II-transposed recurrence
`y[i] = b[0]·x[i] + z[0]`, `z[j] ← b[j+1]·x[i] + z[j+1] - a[j+1]·y[i]`
(with `z[len] = 0` and missing coefficients read as 0); samples are
modelled as `ℚ` — the identities proved are performed by the same
operation sequence on both sides, channel by channel, so one channel row
is modelled.
-/

/-- One sample of scipy's `lfilter` direct-form-II-transposed recurrence. -/
def lfilterStep (b a zi : List ℚ) (x : ℚ) : ℚ × List ℚ :=
  let y := b.getD 0 0 * x + zi.getD 0 0
  (y, (List.range zi.length).map
    (fun i => b.getD (i + 1) 0 * x + zi.getD (i + 1) 0 - a.getD (i + 1) 0 * y))

/-- Embedding of `signal.lfilter(b, a, x, zi=zi)` on one channel row:
returns the filtered row and the final state. -/
def lfilter (b a zi : List ℚ) : List ℚ → List ℚ × List ℚ
  | [] => ([], zi)
  | x :: xs =>
    let p := lfilterStep b a zi x
    let q := lfilter b a p.2 xs
    (p.1 :: q.1, q.2)

/-- Helper for the numpy slice `l[offset::k]`: countdown until the next
taken element. -/
def sliceStrideAux {α : Type} (k : ℕ) : ℕ → List α → List α
  | _, [] => []
  | 0, x :: xs => x :: sliceStrideAux k (k - 1) xs
  | n + 1, _ :: xs => sliceStrideAux k n xs

/-- Embedding of the numpy slice `l[offset::k]` (stride `k ≥ 1`). -/
def sliceStride {α : Type} (offset k : ℕ) (l : List α) : List α :=
  sliceStrideAux k offset l

/-- One call of the downsampling branch of `process_output` on one channel
row: anti-aliasing filter with carried state `zi`, then the subsample
`filtered[binningoffset::binning]`. -/
def binningBlock (b a : List ℚ) (k offset : ℕ) (zi : List ℚ) (x : List ℚ) :
    List ℚ × List ℚ :=
  (sliceStride offset k (lfilter b a zi x).1, (lfilter b a zi x).2)

/-- Chunk-by-chunk processing across read cycles: `zi` is carried forward;
`binningoffset` stays at its initial value, exactly as in the source
(where it is initialised to 0 and never recomputed). -/
def binningChunks (b a : List ℚ) (k offset : ℕ) (zi : List ℚ) :
    List (List ℚ) → List ℚ × List ℚ
  | [] => ([], zi)
  | x :: xs =>
    let p := binningBlock b a k offset zi x
    let q := binningChunks b a k offset p.2 xs
    (p.1 ++ q.1, q.2)

/-!
### C3 — decimation of the sample-counter channel

Source (`amplifier.py`, line 601):
`self.eeg_data.sample_channel = d[2][:, self.binningoffset::self.binning] / self.binning`
— every `binning`-th raw counter value is taken *and divided by the
binning factor* (the NeoRec variant, `amplifier_neorec.py` line 454,
additionally truncates the quotient to an integer).
-/

/-- Embedding of the counter decimation
`d[2][:, offset::k] / k` on the counter row. -/
def sampleDecimate (k offset : ℕ) (counters : List ℚ) : List ℚ :=
  (sliceStride offset k counters).map (fun v => v / (k : ℚ))

/-!
### C5 — reference averaging, subtraction and channel removal

Source (`amplifier.py`, `process_output`, lines 610-631): when
`len(self.ref_index)` is nonzero,
`reference = np.mean(self.eeg_data.eeg_channels[self.ref_index], 0)`;
`self.eeg_data.eeg_channels[:len(self.eeg_indices)] -= reference`;
and when `len(self.ref_remove_index) > 0`,
`self.eeg_data.eeg_channels = np.delete(self.eeg_data.eeg_channels,
self.ref_remove_index, 0)`.  The accompanying
`self.eeg_data.channel_properties` is not touched anywhere in this block.
-/

/-- Embedding of the row selection `m[idxs]`. -/
def selectRows (idxs : List ℕ) (m : List (List ℚ)) : List (List ℚ) :=
  idxs.map (fun i => m.getD i [])

/-- Columnwise sum of a list of rows (axis-0 sum). -/
def sumColumns : List (List ℚ) → List ℚ
  | [] => []
  | [r] => r
  | r :: rest => List.zipWith (fun u v => u + v) r (sumColumns rest)

/-- Embedding of `np.mean(m[idxs], 0)`. -/
def meanRows (idxs : List ℕ) (m : List (List ℚ)) : List ℚ :=
  (sumColumns (selectRows idxs m)).map (fun v => v / (idxs.length : ℚ))

/-- Helper of `np.delete(m, idxs, 0)`: walk the rows with their indices and
drop those listed in `idxs`. -/
def deleteRowsAux {α : Type} (idxs : List ℕ) : ℕ → List α → List α
  | _, [] => []
  | i, r :: rest =>
    if idxs.contains i then deleteRowsAux idxs (i + 1) rest
    else r :: deleteRowsAux idxs (i + 1) rest

/-- Embedding of `np.delete(m, idxs, 0)`. -/
def deleteRows {α : Type} (idxs : List ℕ) (m : List α) : List α :=
  deleteRowsAux idxs 0 m

/-- Embedding of the reference branch of `process_output`: `eegCount` is
`len(self.eeg_indices)` (the EEG rows come first in the matrix), `refIdx`
is `self.ref_index`, `removeIdx` is `self.ref_remove_index`, `props` the
channel-properties snapshot travelling with the block. -/
def refStep {α : Type} (eegCount : ℕ) (refIdx removeIdx : List ℕ)
    (m : List (List ℚ)) (props : List α) : List (List ℚ) × List α :=
  if refIdx.length = 0 then (m, props)
  else
    let reference := meanRows refIdx m
    let m2 := (m.take eegCount).map
        (fun row => List.zipWith (fun u v => u - v) row reference) ++ m.drop eegCount
    let m3 := if removeIdx.length = 0 then m2 else deleteRows removeIdx m2
    (m3, props)

/-! ### Theorems -/

/-! ### Shared list lemmas -/

/-- Reading an element of `(List.range n).map f` below the length gives `f i`. -/
theorem getD_range_map {α : Type} (d : α) (f : ℕ → α) (n i : ℕ) (h : i < n) :
    ((List.range n).map f).getD i d = f i := by
  simp [List.getD_eq_getElem?_getD, List.getElem?_map, List.getElem?_range, h]

/-- Mapping `getD` over the index range of a list reproduces the list. -/
theorem map_getD_range {α : Type} (d : α) :
    ∀ (m : List α), (List.range m.length).map (fun i => m.getD i d) = m := by
  intro m
  induction m with
  | nil => simp
  | cons r t ih =>
    simp only [List.length_cons, List.range_succ_eq_map, List.map_cons, List.map_map]
    refine congrArg₂ _ rfl ?_
    calc (List.range t.length).map ((fun i => (r :: t).getD i d) ∘ Nat.succ)
        = (List.range t.length).map (fun i => t.getD i d) := by
          refine List.map_congr_left ?_
          intro i _
          rfl
      _ = t := ih

theorem triggerDecimateAux_window (k : ℕ) :
    ∀ (g rest : List ℕ) (acc : ℕ), g ≠ [] →
      triggerDecimateAux k (g ++ rest) g.length acc
        = g.foldl Nat.lor acc :: triggerDecimateAux k rest k 0 := by
  intro g
  induction g with
  | nil => intro rest acc h; exact absurd rfl h
  | cons x xs ih =>
    intro rest acc _
    cases xs with
    | nil => simp [triggerDecimateAux]
    | cons y t =>
      have hlen : ¬ (x :: y :: t).length ≤ 1 := by simp
      have key : triggerDecimateAux k ((x :: y :: t) ++ rest) (x :: y :: t).length acc
          = if (x :: y :: t).length ≤ 1 then
              Nat.lor acc x :: triggerDecimateAux k ((y :: t) ++ rest) k 0
            else
              triggerDecimateAux k ((y :: t) ++ rest) ((x :: y :: t).length - 1)
                (Nat.lor acc x) := rfl
      rw [key, if_neg hlen]
      have h2 : (x :: y :: t).length - 1 = (y :: t).length := by simp
      rw [h2, ih rest (Nat.lor acc x) (by simp)]
      simp

theorem foldl_lor_testBit_acc :
    ∀ (g : List ℕ) (acc : ℕ) (i : ℕ), acc.testBit i = true →
      (g.foldl Nat.lor acc).testBit i = true := by
  intro g
  induction g with
  | nil => intro acc i h; exact h
  | cons z t ih =>
    intro acc i h
    simp only [List.foldl_cons]
    refine ih _ i ?_
    rw [show Nat.lor acc z = acc ||| z from rfl]
    simp [Nat.testBit_lor, h]

theorem foldl_lor_testBit :
    ∀ (g : List ℕ) (acc x : ℕ), x ∈ g → ∀ i, x.testBit i = true →
      (g.foldl Nat.lor acc).testBit i = true := by
  intro g
  induction g with
  | nil => intro acc x hx; exact absurd hx (List.not_mem_nil x)
  | cons y t ih =>
    intro acc x hx i hbit
    rcases List.mem_cons.1 hx with h | h
    · subst h
      simp only [List.foldl_cons]
      refine foldl_lor_testBit_acc t _ i ?_
      rw [show Nat.lor acc x = acc ||| x from rfl]
      simp [Nat.testBit_lor, hbit]
    · simp only [List.foldl_cons]
      exact ih _ x h i hbit

/-- C4: when the decimation factor `k` exceeds 1 (here: any `k ≥ 1`), each
output trigger value equals the bitwise OR of the `k` input trigger values
of its decimation window, so any trigger bit set anywhere within a window
survives decimation. -/
theorem trigger_or_reduction (k : ℕ) (groups : List (List ℕ)) (hk : 1 ≤ k)
    (hg : ∀ g ∈ groups, g.length = k) :
    triggerDecimate k groups.flatten = groups.map (fun g => g.foldl Nat.lor 0)
    ∧ ∀ (g : List ℕ) (x : ℕ), x ∈ g → ∀ i, x.testBit i = true →
        (g.foldl Nat.lor 0).testBit i = true := by
  constructor
  · induction groups with
    | nil => simp [triggerDecimate, triggerDecimateAux]
    | cons g gs ih =>
      have hgk : g.length = k := hg g (by simp)
      have hne : g ≠ [] := by
        intro h; rw [h] at hgk; simp at hgk; omega
      have step := triggerDecimateAux_window k g (gs.flatten) 0 hne
      rw [hgk] at step
      simp only [List.flatten_cons, List.map_cons]
      rw [triggerDecimate, step]
      have := ih (fun g' hg' => hg g' (by simp [hg']))
      rw [triggerDecimate] at this
      rw [this]
  · intro g x hx i hbit
    exact foldl_lor_testBit g 0 x hx i hbit

/-- Witness for C4 at a concrete input: two windows of two trigger values. -/
theorem trigger_or_reduction_witness :
    triggerDecimate 2 ([[1, 2], [4, 0]] : List (List ℕ)).flatten
      = ([[1, 2], [4, 0]] : List (List ℕ)).map (fun g => g.foldl Nat.lor 0)
    ∧ ([[1, 2], [4, 0]] : List (List ℕ)).map (fun g => g.foldl Nat.lor 0) = [3, 4] :=
  ⟨(trigger_or_reduction 2 [[1, 2], [4, 0]] (by decide) (by decide)).1, by decide⟩

theorem transmitAll_spec (blocks : List ℕ) :
    ∀ (q : StageQueue),
      (transmitAll q blocks).1.cap = q.cap
      ∧ (transmitAll q blocks).1.items = q.items ++ blocks.take (q.cap - q.items.length)
      ∧ (transmitAll q blocks).2 = blocks.length - (q.cap - q.items.length) := by
  induction blocks with
  | nil => intro q; simp [transmitAll]
  | cons x xs ih =>
    intro q
    by_cases h : q.items.length < q.cap
    · have step : transmitData q x = ({ q with items := q.items ++ [x] }, 0) := by
        simp [transmitData, h]
      have hrun : transmitAll q (x :: xs)
          = ((transmitAll { q with items := q.items ++ [x] } xs).1,
              0 + (transmitAll { q with items := q.items ++ [x] } xs).2) := by
        rw [transmitAll, step]
      obtain ⟨ihc, ihi, ihe⟩ := ih { q with items := q.items ++ [x] }
      rw [hrun]
      refine ⟨by simpa using ihc, ?_, ?_⟩
      · rw [ihi]
        have hlen : ({ q with items := q.items ++ [x] } : StageQueue).items.length
            = q.items.length + 1 := by simp
        have hfree : q.cap - (q.items.length + 1) = (q.cap - q.items.length) - 1 := by omega
        have htake : (x :: xs).take (q.cap - q.items.length)
            = x :: xs.take ((q.cap - q.items.length) - 1) := by
          have h1 : q.cap - q.items.length = ((q.cap - q.items.length) - 1) + 1 := by omega
          rw [h1, List.take_succ_cons]
          simp
        simp only [hlen, hfree, htake]
        simp [List.append_assoc]
      · rw [ihe]
        simp only [List.length_cons]
        have hlen : ({ q with items := q.items ++ [x] } : StageQueue).items.length
            = q.items.length + 1 := by simp
        rw [hlen]
        omega
    · have step : transmitData q x = (q, 1) := by simp [transmitData, h]
      have hrun : transmitAll q (x :: xs)
          = ((transmitAll q xs).1, 1 + (transmitAll q xs).2) := by
        rw [transmitAll, step]
      obtain ⟨ihc, ihi, ihe⟩ := ih q
      have hfree : q.cap - q.items.length = 0 := by omega
      rw [hrun]
      refine ⟨ihc, ?_, ?_⟩
      · rw [ihi, hfree]; simp
      · rw [ihe, hfree]
        simp only [List.length_cons]
        omega

/-- C7: enqueueing `cap + k` blocks into an initially empty bounded queue
with no dequeue never blocks (the embedding is a total function), keeps
exactly the first `cap` blocks queued (a full queue drops the newly offered
block, leaving the queued ones unchanged), and reports exactly `k`
overflow events; the default capacity is 20 blocks. -/
theorem bounded_queue_drop_policy (cap k : ℕ) (blocks : List ℕ)
    (hlen : blocks.length = cap + k) :
    (transmitAll ⟨cap, []⟩ blocks).1.items = blocks.take cap
    ∧ (transmitAll ⟨cap, []⟩ blocks).2 = k
    ∧ defaultQueueSize = 20 := by
  obtain ⟨_, hi, he⟩ := transmitAll_spec blocks ⟨cap, []⟩
  refine ⟨?_, ?_, rfl⟩
  · simpa using hi
  · rw [he]; simp [hlen]

/-- Witness for C7 at a concrete input: capacity 2, three blocks offered,
one overflow event, queue keeps the first two blocks. -/
theorem bounded_queue_drop_policy_witness :
    (transmitAll ⟨2, []⟩ [10, 20, 30]).1.items = [10, 20]
    ∧ (transmitAll ⟨2, []⟩ [10, 20, 30]).2 = 1
    ∧ defaultQueueSize = 20 := by
  have h := bounded_queue_drop_policy 2 1 [10, 20, 30] (by decide)
  simpa using h

/-- C8 counterexample: in the NeoRec pipeline, 501 consecutive no-data polls
cross the timeout threshold, yet no fatal connection-broken error is ever
raised — the device is only marked disconnected.  This refutes the claim
that the pipeline (both variants) raises a fatal error past the threshold. -/
theorem neorec_timeout_never_raises :
    PollOutcome.fatalError ∉ (neorecPollRun (0, true) (List.replicate 501 false)).2
    ∧ (neorecPollRun (0, true) (List.replicate 501 false)).1 = (0, false) := by
  constructor
  · decide
  · decide

/-- C8 (amended): while running, every no-data poll increments the
consecutive-timeout counter and emits no output, every poll with data
resets the counter to zero, and when the counter exceeds its threshold the
ActiChamp pipeline raises the fatal connection-broken error and resets the
counter (101 consecutive no-data polls produce 100 silent no-output polls
followed by one fatal error), whereas the NeoRec pipeline only resets the
counter and marks the device disconnected without raising. -/
theorem timeout_threshold_behavior :
    (∀ c, champPollStep c true = (0, PollOutcome.proceed))
    ∧ (∀ c, c < 100 → champPollStep c false = (c + 1, PollOutcome.noOutput))
    ∧ champPollStep 100 false = (0, PollOutcome.fatalError)
    ∧ champPollRun 0 (List.replicate 101 false)
        = (0, List.replicate 100 PollOutcome.noOutput ++ [PollOutcome.fatalError])
    ∧ neorecPollStep (500, true) false = ((0, false), PollOutcome.noOutput) := by
  refine ⟨?_, ?_, ?_, ?_, ?_⟩
  · intro c; simp [champPollStep]
  · intro c hc
    rw [champPollStep, if_neg (by simp), if_neg (by omega)]
  · decide
  · decide
  · decide

/-- Witness for C8 (amended) at a concrete input: counter 7, no data. -/
theorem timeout_threshold_behavior_witness :
    champPollStep 7 false = (8, PollOutcome.noOutput)
    ∧ champPollStep 7 true = (0, PollOutcome.proceed) :=
  ⟨timeout_threshold_behavior.2.1 7 (by omega), timeout_threshold_behavior.1 7⟩

/-- C9: the start procedure checks the battery twice — once directly after
opening and once after configuring the hardware — and a failure of either
check raises a battery-low error, so the module never transitions to
Running (worker thread not started) and exactly one error event is sent;
when both checks pass and channels are selected, the trace contains exactly
two battery checks, one before `setup` and one after, and the module starts. -/
theorem start_battery_checks (s1 s2 : ℕ) (hc : Bool) :
    (¬ s1 < 2 →
      champProcessStart s1 s2 hc
        = ([StartAction.openAmp, StartAction.batteryCheck], some StartError.batteryLow)
      ∧ moduleStart s1 s2 hc = (false, false, 1))
    ∧ (s1 < 2 → hc = true → ¬ s2 < 2 →
      champProcessStart s1 s2 hc
        = ([StartAction.openAmp, StartAction.batteryCheck, StartAction.setupAmp,
            StartAction.batteryCheck], some StartError.batteryLow)
      ∧ moduleStart s1 s2 hc = (false, false, 1))
    ∧ (s1 < 2 → hc = true → s2 < 2 →
      champProcessStart s1 s2 hc
        = ([StartAction.openAmp, StartAction.batteryCheck, StartAction.setupAmp,
            StartAction.batteryCheck, StartAction.startAmp], none)
      ∧ moduleStart s1 s2 hc = (true, true, 0)
      ∧ (champProcessStart s1 s2 hc).1.count StartAction.batteryCheck = 2) := by
  refine ⟨?_, ?_, ?_⟩
  · intro h1
    have he : champProcessStart s1 s2 hc
        = ([StartAction.openAmp, StartAction.batteryCheck], some StartError.batteryLow) := by
      rw [champProcessStart, if_neg h1]
    exact ⟨he, by rw [moduleStart, he]⟩
  · intro h1 hcc h2
    subst hcc
    have he : champProcessStart s1 s2 true
        = ([StartAction.openAmp, StartAction.batteryCheck, StartAction.setupAmp,
            StartAction.batteryCheck], some StartError.batteryLow) := by
      rw [champProcessStart, if_pos h1, if_pos rfl, if_neg h2]
    exact ⟨he, by rw [moduleStart, he]⟩
  · intro h1 hcc h2
    subst hcc
    have he : champProcessStart s1 s2 true
        = ([StartAction.openAmp, StartAction.batteryCheck, StartAction.setupAmp,
            StartAction.batteryCheck, StartAction.startAmp], none) := by
      rw [champProcessStart, if_pos h1, if_pos rfl, if_pos h2]
    exact ⟨he, by rw [moduleStart, he], by rw [he]; decide⟩

/-- Witness for C9 at concrete inputs: a battery state of 2 on the first
check aborts the start; good states on both checks start the module with
exactly two battery checks in the trace. -/
theorem start_battery_checks_witness :
    (champProcessStart 2 0 true
        = ([StartAction.openAmp, StartAction.batteryCheck], some StartError.batteryLow)
      ∧ moduleStart 2 0 true = (false, false, 1))
    ∧ (champProcessStart 0 0 true).1.count StartAction.batteryCheck = 2 :=
  ⟨(start_battery_checks 2 0 true).1 (by omega),
    ((start_battery_checks 0 0 true).2.2 (by omega) rfl (by omega)).2.2⟩

theorem warmupRun_steady :
    ∀ (es : List ℤ) (iec : ℤ), 0 ≤ iec →
      warmupRun (0, iec) es = ((0, iec), List.replicate es.length true) := by
  intro es
  induction es with
  | nil => intro iec _; simp [warmupRun]
  | cons e rest ih =>
    intro iec hiec
    have hstep : warmupStep (0, iec) e = ((0, iec), true) := by
      rw [warmupStep, if_neg (by simp), if_neg (by omega)]
    rw [warmupRun, hstep]
    simp only []
    rw [ih iec hiec]
    simp [List.replicate_succ]

theorem warmupRun_spec :
    ∀ (es : List ℤ) (k : ℕ) (iec : ℤ), (∀ e ∈ es, 0 ≤ e) → iec < 0 →
      (warmupRun (k, iec) es).2
          = List.replicate (min k es.length) false ++ List.replicate (es.length - k) true
      ∧ (warmupRun (k, iec) es).1.2 = (if k < es.length then es.getD k 0 else iec)
      ∧ (warmupRun (k, iec) es).1.1 = k - es.length := by
  intro es
  induction es with
  | nil =>
    intro k iec _ _
    simp [warmupRun]
  | cons e rest ih =>
    intro k iec hpos hiec
    cases k with
    | zero =>
      have hstep : warmupStep (0, iec) e = ((0, e), true) := by
        rw [warmupStep, if_neg (by simp), if_pos hiec]
      have hrest := warmupRun_steady rest e (hpos e (by simp))
      rw [warmupRun, hstep]
      simp only []
      rw [hrest]
      refine ⟨?_, ?_, ?_⟩
      · simp [List.replicate_succ]
      · simp
      · simp
    | succ k' =>
      have hstep : warmupStep (k' + 1, iec) e = ((k', iec), false) := by
        rw [warmupStep, if_pos (by omega)]
        simp
      obtain ⟨ih1, ih2, ih3⟩ := ih k' iec (fun x hx => hpos x (by simp [hx])) hiec
      rw [warmupRun, hstep]
      simp only []
      refine ⟨?_, ?_, ?_⟩
      · rw [ih1]
        simp only [List.length_cons, Nat.succ_min_succ, List.replicate_succ,
          List.cons_append, Nat.succ_sub_succ]
      · rw [ih2]
        simp only [List.length_cons, List.getD_cons_succ, Nat.succ_lt_succ_iff]
      · rw [ih3]
        simp only [List.length_cons, Nat.succ_sub_succ]

/-- C10: after a start, the first 5 successfully read blocks are discarded
(no output emitted, baseline untouched), the error baseline is captured
from device status exactly on the 6th successful block and kept thereafter,
and the error delta reported at stop is relative to that baseline (hence
session-relative, independent of errors accumulated before or during
warm-up). -/
theorem warmup_skip_and_baseline (es : List ℤ) (hpos : ∀ e ∈ es, 0 ≤ e) :
    (warmupRun champStartWarmup es).2
        = List.replicate (min 5 es.length) false ++ List.replicate (es.length - 5) true
    ∧ (warmupRun champStartWarmup es).1.2 = (if 5 < es.length then es.getD 5 0 else -1)
    ∧ (5 < es.length → ∀ eStop : ℤ,
        processStopErrors eStop (warmupRun champStartWarmup es).1 = eStop - es.getD 5 0) := by
  obtain ⟨h1, h2, h3⟩ := warmupRun_spec es 5 (-1) hpos (by omega)
  simp only [champStartWarmup]
  refine ⟨h1, h2, ?_⟩
  intro hlen eStop
  rw [processStopErrors, h2, if_pos hlen]

/-- Witness for C10 at a concrete input: seven successful reads with device
error counts `[0,0,0,0,0,7,9]`; only the last two emit blocks and the
baseline is 7 (the count at the sixth read). -/
theorem warmup_skip_and_baseline_witness :
    (warmupRun champStartWarmup [0, 0, 0, 0, 0, 7, 9]).1.2
      = (if 5 < ([0, 0, 0, 0, 0, 7, 9] : List ℤ).length
          then ([0, 0, 0, 0, 0, 7, 9] : List ℤ).getD 5 0 else -1)
    ∧ (warmupRun champStartWarmup [0, 0, 0, 0, 0, 7, 9]).1.2 = 7
    ∧ (warmupRun champStartWarmup [0, 0, 0, 0, 0, 7, 9]).2
        = [false, false, false, false, false, true, true] :=
  ⟨(warmup_skip_and_baseline [0, 0, 0, 0, 0, 7, 9] (by decide)).2.1,
    by decide, by decide⟩

theorem U32_pos : 0 < U32 := by rw [U32]; positivity

theorem mod_add_of_dvd (adjust m : ℕ) (h : U32 ∣ adjust) :
    (adjust + m) % U32 = m % U32 := by
  obtain ⟨t, ht⟩ := h
  rw [ht, Nat.mul_add_mod]

theorem consec_entry_low (c k adjust : ℕ) (hdvd : U32 ∣ adjust)
    (hadj : adjust + c % U32 = c) (hlow : c % U32 + k < U32) :
    (c + k) % U32 = c % U32 + k := by
  have h1 : c + k = adjust + (c % U32 + k) := by omega
  rw [h1, mod_add_of_dvd _ _ hdvd, Nat.mod_eq_of_lt hlow]

theorem consec_entry_high (c k adjust : ℕ) (hdvd : U32 ∣ adjust)
    (hadj : adjust + c % U32 = c) (hgeq : U32 ≤ c % U32 + k)
    (hlt : c % U32 + k < 2 * U32) :
    (c + k) % U32 = c % U32 + k - U32 := by
  have h1 : c + k = (adjust + U32) + (c % U32 + k - U32) := by omega
  have h2 : U32 ∣ adjust + U32 := dvd_add hdvd dvd_rfl
  rw [h1, mod_add_of_dvd _ _ h2, Nat.mod_eq_of_lt (by omega)]

theorem headI_map_range (n : ℕ) (g : ℕ → ℕ) (hn : n ≠ 0) :
    ((List.range n).map g).headI = g 0 := by
  cases n with
  | zero => exact absurd rfl hn
  | succ m => rw [List.range_succ_eq_map]; simp

theorem firstZeroIdx_eq_none :
    ∀ (l : List ℕ), (∀ x ∈ l, x ≠ 0) → firstZeroIdx l = none := by
  intro l
  induction l with
  | nil => intro _; rfl
  | cons v rest ih =>
    intro h
    simp only [firstZeroIdx]
    rw [if_neg (h v (by simp)), ih (fun x hx => h x (by simp [hx]))]
    rfl

theorem firstZeroIdx_eq_some :
    ∀ (l : List ℕ) (j : ℕ), j < l.length → l.getD j 1 = 0 →
      (∀ i, i < j → l.getD i 1 ≠ 0) → firstZeroIdx l = some j := by
  intro l
  induction l with
  | nil => intro j hj _ _; simp at hj
  | cons v rest ih =>
    intro j hj hz hb
    cases j with
    | zero =>
      simp only [List.getD_cons_zero] at hz
      simp only [firstZeroIdx]
      rw [if_pos hz]
    | succ j' =>
      have hv : v ≠ 0 := by
        have := hb 0 (by omega)
        simpa using this
      simp only [firstZeroIdx]
      rw [if_neg hv,
        ih j' (by simpa using hj) (by simpa using hz)
          (fun i hi => by have := hb (i + 1) (by omega); simpa using this)]
      rfl

theorem addFromIdx_map_range (a : ℕ) :
    ∀ (j n : ℕ) (g : ℕ → ℕ),
      addFromIdx a j ((List.range n).map g)
        = (List.range n).map (fun k => if k < j then g k else g k + a) := by
  intro j
  induction j with
  | zero =>
    intro n g
    simp only [addFromIdx, List.map_map]
    apply List.map_congr_left
    intro k _
    simp
  | succ j' ih =>
    intro n g
    cases n with
    | zero => simp [addFromIdx]
    | succ m =>
      rw [List.range_succ_eq_map]
      simp only [List.map_cons, List.map_map, addFromIdx]
      rw [ih m (g ∘ Nat.succ)]
      rw [if_pos (by omega)]
      refine congrArg₂ _ rfl ?_
      apply List.map_congr_left
      intro k _
      simp only [Function.comp]
      by_cases hk : k < j'
      · rw [if_pos hk, if_pos (by omega)]
      · rw [if_neg hk, if_neg (by omega)]

/-- Behaviour of the wrap handling on one buffer of consecutive counters,
assuming the session invariant `adjust = c - c % 2^32` and that the buffer
does not begin at a wrap point (other than a session start at 0): the
emitted counters are exactly the true 64-bit values `c, c+1, …, c+n-1`. -/
theorem adjustCounters_consec (c n adjust : ℕ)
    (hdvd : U32 ∣ adjust) (hadj : adjust + c % U32 = c)
    (hn1 : 1 ≤ n) (hn2 : n ≤ U32)
    (hc : c % U32 ≠ 0 ∨ c = 0)
    (hnext : (c + n) % U32 ≠ 0 ∨ c + n = 0) :
    neoRecAdjustCounters adjust (consecBuffer c n)
      = ((List.range n).map (fun k => c + k), (c + n) - (c + n) % U32) := by
  have hU := U32_pos
  have hr : c % U32 < U32 := Nat.mod_lt _ hU
  have hsct : (consecBuffer c n).map (fun x => x + adjust)
      = (List.range n).map (fun k => (c + k) % U32 + adjust) := by
    rw [consecBuffer, List.map_map]
    rfl
  rcases hc with hcne | hc0
  · by_cases hwrap : U32 < c % U32 + n
    · -- the wrap lies strictly inside the buffer, at index U32 - c % U32 > 0
      have hjn : U32 - c % U32 < n := by omega
      have hfz : firstZeroIdx (consecBuffer c n) = some (U32 - c % U32) := by
        apply firstZeroIdx_eq_some
        · rw [consecBuffer]; simpa using hjn
        · rw [consecBuffer, getD_range_map 1 _ n _ hjn,
            consec_entry_high c _ adjust hdvd hadj (by omega) (by omega)]
          omega
        · intro i hi
          rw [consecBuffer, getD_range_map 1 _ n i (by omega),
            consec_entry_low c i adjust hdvd hadj (by omega)]
          omega
      have hhead : ((List.range n).map (fun k => (c + k) % U32 + adjust)).headI ≠ 0 := by
        rw [headI_map_range n _ (by omega)]
        have h0 := consec_entry_low c 0 adjust hdvd hadj (by omega)
        omega
      simp only [neoRecAdjustCounters, hfz]
      rw [hsct, if_neg hhead]
      rw [Prod.mk.injEq]
      constructor
      · rw [addFromIdx_map_range]
        apply List.map_congr_left
        intro k hk
        have hkn : k < n := List.mem_range.1 hk
        by_cases hkj : k < U32 - c % U32
        · rw [if_pos hkj, consec_entry_low c k adjust hdvd hadj (by omega)]
          omega
        · rw [if_neg hkj, consec_entry_high c k adjust hdvd hadj (by omega) (by omega)]
          omega
      · have hn' := consec_entry_high c n adjust hdvd hadj (by omega) (by omega)
        omega
    · -- no wrap inside the buffer
      have hnw : c % U32 + n < U32 := by
        rcases hnext with h | h
        · by_contra hcon
          have heq : c % U32 + n = U32 := by omega
          have := consec_entry_high c n adjust hdvd hadj (by omega) (by omega)
          omega
        · omega
      have hfz : firstZeroIdx (consecBuffer c n) = none := by
        apply firstZeroIdx_eq_none
        intro x hx
        rw [consecBuffer] at hx
        obtain ⟨k, hk, rfl⟩ := List.mem_map.1 hx
        have hkn : k < n := List.mem_range.1 hk
        rw [consec_entry_low c k adjust hdvd hadj (by omega)]
        omega
      simp only [neoRecAdjustCounters, hfz]
      rw [hsct]
      rw [Prod.mk.injEq]
      constructor
      · apply List.map_congr_left
        intro k hk
        have hkn : k < n := List.mem_range.1 hk
        rw [consec_entry_low c k adjust hdvd hadj (by omega)]
        omega
      · have := consec_entry_low c n adjust hdvd hadj hnw
        omega
  · -- session start at counter 0: the leading zero is not a wrap
    subst hc0
    have hadj0 : adjust = 0 := by simpa using hadj
    subst hadj0
    have hnlt : n < U32 := by
      rcases hnext with h | h
      · rcases Nat.lt_or_ge n U32 with h' | h'
        · exact h'
        · have hn : n = U32 := le_antisymm hn2 h'
          rw [hn] at h
          simp [Nat.mod_self] at h
      · omega
    have hfz : firstZeroIdx (consecBuffer 0 n) = some 0 := by
      apply firstZeroIdx_eq_some
      · rw [consecBuffer]; simpa using hn1
      · rw [consecBuffer, getD_range_map 1 _ n 0 (by omega)]
        simp
      · intro i hi
        omega
    have hhead : (((List.range n).map fun k => (0 + k) % U32 + 0)).headI = 0 := by
      rw [headI_map_range n _ (by omega)]
      simp
    simp only [neoRecAdjustCounters, hfz]
    rw [hsct, if_pos hhead]
    rw [Prod.mk.injEq]
    constructor
    · apply List.map_congr_left
      intro k hk
      have hkn : k < n := List.mem_range.1 hk
      simp only [Nat.zero_add, Nat.add_zero]
      exact Nat.mod_eq_of_lt (by omega)
    · rw [Nat.zero_add, Nat.mod_eq_of_lt hnlt]
      omega

theorem session_go :
    ∀ (sizes : List ℕ) (c adjust : ℕ),
      U32 ∣ adjust → adjust + c % U32 = c →
      (∀ n ∈ sizes, 1 ≤ n ∧ n ≤ U32) → okStarts c sizes →
      (neoRecReadSession adjust (buffersFrom c sizes)).1
        = (List.range sizes.sum).map (fun k => c + k) := by
  intro sizes
  induction sizes with
  | nil =>
    intro c adjust _ _ _ _
    simp [buffersFrom, neoRecReadSession]
  | cons n rest ih =>
    intro c adjust hdvd hadj hsz hok
    have hok2 : (c % U32 ≠ 0 ∨ c = 0) ∧ okStarts (c + n) rest := hok
    have hnext : (c + n) % U32 ≠ 0 ∨ c + n = 0 := by
      cases rest with
      | nil => exact hok2.2
      | cons m t =>
        have h3 : ((c + n) % U32 ≠ 0 ∨ c + n = 0) ∧ okStarts (c + n + m) t := hok2.2
        exact h3.1
    obtain ⟨hn1, hn2⟩ := hsz n (by simp)
    have hbuf := adjustCounters_consec c n adjust hdvd hadj hn1 hn2 hok2.1 hnext
    have hmod_le : (c + n) % U32 ≤ c + n := Nat.mod_le _ _
    have hdvd' : U32 ∣ (c + n) - (c + n) % U32 := by
      have hdm := Nat.div_add_mod (c + n) U32
      exact ⟨(c + n) / U32, by omega⟩
    have hadj' : ((c + n) - (c + n) % U32) + (c + n) % U32 = c + n := by omega
    have hrest := ih (c + n) ((c + n) - (c + n) % U32) hdvd' hadj'
      (fun m hm => hsz m (by simp [hm])) hok2.2
    simp only [buffersFrom, neoRecReadSession]
    rw [hbuf]
    simp only []
    rw [hrest, List.sum_cons, List.range_add, List.map_append, List.map_map]
    refine congrArg₂ _ rfl ?_
    apply List.map_congr_left
    intro k _
    simp only [Function.comp]
    omega

/-- C2 (amended): for every consecutive counter stream that starts below
`2^32` and is cut into nonempty buffers of at most `2^32` samples such
that no buffer begins exactly at a wrap point (`okStarts`), the session
returns exactly the true 64-bit counter sequence `c0, c0+1, …` — in
particular it never decreases and increases by exactly 1 across every wrap.
Without the `okStarts` boundary condition the claim is false, see
`neorec_wrap_missed_at_boundary`. -/
theorem neorec_counter_wrap (c0 : ℕ) (sizes : List ℕ) (h0 : c0 < U32)
    (hsz : ∀ n ∈ sizes, 1 ≤ n ∧ n ≤ U32) (hok : okStarts c0 sizes) :
    (neoRecReadSession 0 (buffersFrom c0 sizes)).1
      = (List.range sizes.sum).map (fun k => c0 + k) :=
  session_go sizes c0 0 (dvd_zero U32)
    (by rw [Nat.mod_eq_of_lt h0, Nat.zero_add]) hsz hok

/-- C2 counterexample: a consecutive counter stream crossing `2^32` whose
buffer boundary falls exactly on the wrap (buffers `[2^32-1]` and `[0,1]`).
The wrap test `sct[0][0]` sees a zero first element with a zero session
adjustment, so the wrap is missed: the returned sequence is
`[2^32-1, 0, 1]`, which decreases instead of continuing `[2^32-1, 2^32,
2^32+1]`. -/
theorem neorec_wrap_missed_at_boundary :
    (neoRecReadSession 0 (buffersFrom (U32 - 1) [1, 2])).1 = [U32 - 1, 0, 1]
    ∧ ¬ ((neoRecReadSession 0 (buffersFrom (U32 - 1) [1, 2])).1
        = (List.range ([1, 2] : List ℕ).sum).map (fun k => (U32 - 1) + k))
    ∧ (neoRecReadSession 0 (buffersFrom (U32 - 1) [1, 2])).1.getD 1 0
        < (neoRecReadSession 0 (buffersFrom (U32 - 1) [1, 2])).1.getD 0 0 := by
  refine ⟨by decide, by decide, by decide⟩

/-- Witness for C2 (amended) at a concrete input: a session starting at
`2^32 - 2` with one 3-sample buffer; the wrap lies inside the buffer and
the output continues `2^32-2, 2^32-1, 2^32`. -/
theorem neorec_counter_wrap_witness :
    (neoRecReadSession 0 (buffersFrom (U32 - 2) [3])).1
      = (List.range ([3] : List ℕ).sum).map (fun k => (U32 - 2) + k)
    ∧ (neoRecReadSession 0 (buffersFrom (U32 - 2) [3])).1
      = [U32 - 2, U32 - 1, U32] :=
  ⟨neorec_counter_wrap (U32 - 2) [3] (by decide)
      (by intro n hn; simp at hn; subst hn; constructor <;> decide)
      (by refine ⟨Or.inl (by decide), Or.inl (by decide)⟩),
    by decide⟩

theorem distribute_getD (base n : ℕ) (b : BlockObj) (j : ℕ) (hj : j < n)
    (d : BlockObj) :
    (distributeBlocks base n b).getD j d
      = if j = n - 1 then b else deepcopyBlock (base + 6 * (n - 1 - j)) b := by
  have hlen : ((List.range n).map
      (fun idx => if idx = 0 then b else deepcopyBlock (base + 6 * idx) b)).length = n := by
    simp
  rw [distributeBlocks, List.getD_eq_getElem?_getD, List.getElem?_reverse (by omega)]
  rw [hlen, List.getElem?_map, List.getElem?_range (by omega)]
  simp only [Option.map_some', Option.getD_some]
  by_cases hj1 : j = n - 1
  · rw [if_pos (by omega), if_pos hj1]
  · rw [if_neg (by omega), if_neg hj1]

/-- C6: delivering one produced block to `n ≥ 1` consumers hands the
original block to the last consumer in line and an independent deep copy
to every other consumer; any two distinct consumers receive blocks that
share no mutable object identifier (assuming, as Python's allocator
guarantees, that fresh identifiers do not collide with the original's). -/
theorem block_distribution_independent (base n : ℕ) (b : BlockObj) (hn : 1 ≤ n)
    (hbase : ∀ i ∈ blockIds b, i < base) :
    (distributeBlocks base n b).length = n
    ∧ (distributeBlocks base n b).getLast? = some b
    ∧ ∀ j j', j < n → j' < n → j ≠ j' →
        ∀ i, i ∈ blockIds ((distributeBlocks base n b).getD j default) →
          i ∉ blockIds ((distributeBlocks base n b).getD j' default) := by
  refine ⟨by simp [distributeBlocks], ?_, ?_⟩
  · rw [distributeBlocks, List.getLast?_reverse]
    cases n with
    | zero => omega
    | succ m =>
      rw [List.range_succ_eq_map]
      simp
  · intro j j' hj hj' hne i hi hi'
    rw [distribute_getD base n b j hj] at hi
    rw [distribute_getD base n b j' hj'] at hi'
    by_cases e1 : j = n - 1 <;> by_cases e2 : j' = n - 1
    · exact hne (e1.trans e2.symm)
    · rw [if_pos e1] at hi
      rw [if_neg e2] at hi'
      have hlt := hbase i hi
      simp only [blockIds, deepcopyBlock, List.mem_cons, List.not_mem_nil,
        or_false] at hi'
      omega
    · rw [if_neg e1] at hi
      rw [if_pos e2] at hi'
      have hlt := hbase i hi'
      simp only [blockIds, deepcopyBlock, List.mem_cons, List.not_mem_nil,
        or_false] at hi
      omega
    · rw [if_neg e1] at hi
      rw [if_neg e2] at hi'
      simp only [blockIds, deepcopyBlock, List.mem_cons, List.not_mem_nil,
        or_false] at hi hi'
      have hne' : n - 1 - j ≠ n - 1 - j' := by omega
      omega

/-- Witness for C6 at a concrete input: two consumers; the second (last)
receives the original block, deliveries share no identifier. -/
theorem block_distribution_independent_witness :
    (distributeBlocks 100 2 ⟨0, 1, 2, 3, 4, 5⟩).length = 2
    ∧ (distributeBlocks 100 2 ⟨0, 1, 2, 3, 4, 5⟩).getLast?
        = some (⟨0, 1, 2, 3, 4, 5⟩ : BlockObj)
    ∧ (distributeBlocks 100 2 ⟨0, 1, 2, 3, 4, 5⟩).getD 0 default
        = deepcopyBlock 106 ⟨0, 1, 2, 3, 4, 5⟩ :=
  ⟨(block_distribution_independent 100 2 ⟨0, 1, 2, 3, 4, 5⟩ (by decide) (by decide)).1,
    (block_distribution_independent 100 2 ⟨0, 1, 2, 3, 4, 5⟩ (by decide) (by decide)).2.1,
    by decide⟩

theorem lfilter_append (b a : List ℚ) :
    ∀ (xs ys zi : List ℚ),
      lfilter b a zi (xs ++ ys)
        = ((lfilter b a zi xs).1 ++ (lfilter b a (lfilter b a zi xs).2 ys).1,
            (lfilter b a (lfilter b a zi xs).2 ys).2) := by
  intro xs
  induction xs with
  | nil => intro ys zi; simp [lfilter]
  | cons x xs ih =>
    intro ys zi
    simp only [List.cons_append, lfilter, List.append_eq]
    rw [ih ys (lfilterStep b a zi x).2]

theorem lfilter_length (b a : List ℚ) :
    ∀ (xs zi : List ℚ), (lfilter b a zi xs).1.length = xs.length := by
  intro xs
  induction xs with
  | nil => intro zi; simp [lfilter]
  | cons x xs ih =>
    intro zi
    simp only [lfilter, List.length_cons]
    rw [ih]

theorem sliceStrideAux_consume {α : Type} (k : ℕ) :
    ∀ (t : List α) (n : ℕ) (rest : List α), t.length ≤ n →
      sliceStrideAux k n (t ++ rest) = sliceStrideAux k (n - t.length) rest := by
  intro t
  induction t with
  | nil => intro n rest _; simp
  | cons x t ih =>
    intro n rest h
    cases n with
    | zero => simp at h
    | succ m =>
      simp only [List.cons_append, sliceStrideAux, List.append_eq]
      rw [ih m rest (by simpa using h)]
      have he : m - t.length = m + 1 - (t.length + 1) := by omega
      rw [he]
      rfl

theorem sliceStride_block {α : Type} (k offset : ℕ) (g rest : List α)
    (hg : g.length = k) (hoff : offset < k) :
    sliceStride offset k (g ++ rest)
      = g.get ⟨offset, by omega⟩ :: sliceStride offset k rest := by
  have hsplit : g ++ rest = g.take offset ++ (g.drop offset ++ rest) := by
    rw [← List.append_assoc, List.take_append_drop]
  have hlen_take : (g.take offset).length = offset := by
    rw [List.length_take]
    omega
  rw [sliceStride, hsplit,
    sliceStrideAux_consume k (g.take offset) offset _ (by omega)]
  rw [hlen_take, Nat.sub_self]
  have hoff' : offset < g.length := by omega
  rw [List.drop_eq_getElem_cons hoff']
  simp only [List.cons_append, sliceStrideAux, List.append_eq]
  rw [sliceStrideAux_consume k (g.drop (offset + 1)) (k - 1) rest
      (by rw [List.length_drop]; omega)]
  have he : k - 1 - (g.drop (offset + 1)).length = offset := by
    rw [List.length_drop]
    omega
  rw [he]
  simp only [List.get_eq_getElem]
  rfl

theorem sliceStride_append_of_dvd {α : Type} (k offset : ℕ)
    (hk : 1 ≤ k) (hoff : offset < k) :
    ∀ (m : ℕ) (l1 l2 : List α), l1.length = k * m →
      sliceStride offset k (l1 ++ l2)
        = sliceStride offset k l1 ++ sliceStride offset k l2 := by
  intro m
  induction m with
  | zero =>
    intro l1 l2 h
    have h0 : l1 = [] := List.eq_nil_of_length_eq_zero (by omega)
    subst h0
    simp [sliceStride, sliceStrideAux]
  | succ m ih =>
    intro l1 l2 h
    rw [Nat.mul_succ] at h
    have hg : (l1.take k).length = k := by
      rw [List.length_take]
      omega
    have hr1 : (l1.drop k).length = k * m := by
      rw [List.length_drop]
      omega
    have hsplit : l1 = l1.take k ++ l1.drop k := (List.take_append_drop k l1).symm
    have hblock1 := sliceStride_block k offset (l1.take k) (l1.drop k ++ l2) hg hoff
    have hblock2 := sliceStride_block k offset (l1.take k) (l1.drop k) hg hoff
    calc sliceStride offset k (l1 ++ l2)
        = sliceStride offset k (l1.take k ++ (l1.drop k ++ l2)) := by
          rw [← List.append_assoc, ← hsplit]
      _ = (l1.take k).get ⟨offset, by omega⟩
            :: sliceStride offset k (l1.drop k ++ l2) := hblock1
      _ = (l1.take k).get ⟨offset, by omega⟩
            :: (sliceStride offset k (l1.drop k) ++ sliceStride offset k l2) := by
          rw [ih (l1.drop k) l2 hr1]
      _ = ((l1.take k).get ⟨offset, by omega⟩
            :: sliceStride offset k (l1.drop k)) ++ sliceStride offset k l2 := rfl
      _ = sliceStride offset k (l1.take k ++ l1.drop k) ++ sliceStride offset k l2 := by
          rw [hblock2]
      _ = sliceStride offset k l1 ++ sliceStride offset k l2 := by rw [← hsplit]

/-- C1 counterexample: with decimation factor 2 and the signal
`0,1,2,3,4,5` split into chunks of length 3, chunk-by-chunk processing
(carrying `zi` and the never-recomputed binning offset forward) yields the
decimated samples at indices `{0,2}` of each chunk — global indices
`{0,2,3,5}` — while whole-signal processing decimates at global indices
`{0,2,4}`.  The outputs differ, refuting the claim for arbitrary chunkings
(shown here with pass-through coefficients `b = [1]`, `a = [1]`, for which
the filtered row equals the input row). -/
theorem binning_chunking_differs :
    (binningChunks [1] [1] 2 0 [] [[0, 1, 2], [3, 4, 5]]).1
      ≠ (binningBlock [1] [1] 2 0 []
          ([[0, 1, 2], [3, 4, 5]] : List (List ℚ)).flatten).1 := by
  have h1 : (binningChunks [1] [1] 2 0 [] [[0, 1, 2], [3, 4, 5]]).1
      = [0, 2, 3, 5] := by
    simp [binningChunks, binningBlock, lfilter, lfilterStep, sliceStride,
      sliceStrideAux]
  have h2 : (binningBlock [1] [1] 2 0 []
      ([[0, 1, 2], [3, 4, 5]] : List (List ℚ)).flatten).1 = [0, 2, 4] := by
    simp [binningBlock, lfilter, lfilterStep, sliceStride, sliceStrideAux]
  rw [h1, h2]
  intro h
  have := congrArg List.length h
  simp at this

/-- C1 (amended): when every chunk length is a multiple of the decimation
factor — the alignment that the hardware read layer enforces by returning
only binning-aligned buffers — running the decimating anti-aliasing filter
chunk-by-chunk while carrying the IIR state `zi` (and the constant binning
offset) forward produces exactly the same concatenated decimated output
and the same final filter state as filtering and decimating the whole
concatenated signal in one call, for every coefficient set, initial state
and input signal. -/
theorem binning_chunked_eq_whole (b a zi : List ℚ) (k offset : ℕ)
    (hk : 1 ≤ k) (hoff : offset < k)
    (chunks : List (List ℚ)) (hdiv : ∀ x ∈ chunks, k ∣ x.length) :
    binningChunks b a k offset zi chunks
      = binningBlock b a k offset zi chunks.flatten := by
  induction chunks generalizing zi with
  | nil => simp [binningChunks, binningBlock, lfilter, sliceStride, sliceStrideAux]
  | cons x xs ih =>
    obtain ⟨m, hm⟩ := hdiv x (by simp)
    have hxlen : (lfilter b a zi x).1.length = k * m := by
      rw [lfilter_length, hm]
    have hrest := ih (lfilter b a zi x).2 (fun y hy => hdiv y (by simp [hy]))
    simp only [List.flatten_cons, binningChunks, binningBlock]
    rw [lfilter_append b a x xs.flatten zi]
    dsimp only
    rw [sliceStride_append_of_dvd k offset hk hoff m (lfilter b a zi x).1
        ((lfilter b a (lfilter b a zi x).2 xs.flatten).1) hxlen]
    rw [hrest]
    simp only [binningBlock]

/-- Witness for C1 (amended) at a concrete input: factor 2, offset 0,
pass-through coefficients, chunks `[1,2]` and `[3,4]`. -/
theorem binning_chunked_eq_whole_witness :
    binningChunks [1] [1] 2 0 [] [[1, 2], [3, 4]]
      = binningBlock [1] [1] 2 0 [] ([[1, 2], [3, 4]] : List (List ℚ)).flatten :=
  binning_chunked_eq_whole [1] [1] [] 2 0 (by decide) (by decide)
    [[1, 2], [3, 4]] (by decide)

/-- C3 counterexample: with factor 2 and raw counters `[2, 3]`, the code
emits `[1]` (the selected value 2 divided by the factor), not the selected
raw value `[2]` — the counter values are rescaled, not passed through
unchanged. -/
theorem counter_values_rescaled :
    sampleDecimate 2 0 [2, 3] ≠ sliceStride 0 2 ([2, 3] : List ℚ) := by
  have h1 : sampleDecimate 2 0 [2, 3] = [1] := by
    simp [sampleDecimate, sliceStride, sliceStrideAux]
  have h2 : sliceStride 0 2 ([2, 3] : List ℚ) = [2] := by
    simp [sliceStride, sliceStrideAux]
  rw [h1, h2]
  intro h
  have h12 : (1 : ℚ) = 2 := (List.cons.inj h).1
  norm_num at h12

theorem sliceStride_zero_map_range (k : ℕ) (hk : 1 ≤ k) :
    ∀ (m : ℕ) (f : ℕ → ℚ),
      sliceStride 0 k ((List.range (m * k)).map f)
        = (List.range m).map (fun j => f (j * k)) := by
  intro m
  induction m with
  | zero => intro f; simp [sliceStride, sliceStrideAux]
  | succ m ih =>
    intro f
    have hsz : (m + 1) * k = k + m * k := by ring
    rw [hsz, List.range_add, List.map_append]
    have hg : ((List.range k).map f).length = k := by simp
    rw [sliceStride_block k 0 ((List.range k).map f)
        (((List.range (m * k)).map fun l => k + l).map f) hg (by omega)]
    rw [List.map_map, ih (f ∘ (fun l => k + l))]
    have hget : ((List.range k).map f).get ⟨0, by omega⟩ = f 0 := by
      simp only [List.get_eq_getElem, List.getElem_map, List.getElem_range]
    rw [hget, List.range_succ_eq_map, List.map_cons]
    simp only [Nat.zero_mul, List.map_map]
    refine congrArg₂ _ rfl ?_
    apply List.map_congr_left
    intro j _
    simp only [Function.comp]
    refine congrArg f ?_
    rw [Nat.succ_eq_add_one]
    ring

/-- C3 (amended): the decimated sample-counter channel takes every `k`-th
raw counter value and divides it by `k`; consequently, for a consecutive
raw counter stream starting at `c`, the output is the consecutive stream
starting at `c / k` — the counter channel is rescaled from input-sample to
output-sample units. -/
theorem sample_counter_decimation (c : ℚ) (k m : ℕ) (hk : 1 ≤ k) :
    sampleDecimate k 0 ((List.range (m * k)).map (fun (i : ℕ) => c + (i : ℚ)))
      = (List.range m).map (fun (j : ℕ) => c / (k : ℚ) + (j : ℚ)) := by
  rw [sampleDecimate,
    sliceStride_zero_map_range k hk m (fun (i : ℕ) => c + (i : ℚ)),
    List.map_map]
  apply List.map_congr_left
  intro j _
  simp only [Function.comp]
  have hk0 : (k : ℚ) ≠ 0 := Nat.cast_ne_zero.2 (by omega)
  push_cast
  field_simp

/-- Witness for C3 (amended) at a concrete input: factor 2, counters
starting at 2, one output sample. -/
theorem sample_counter_decimation_witness :
    sampleDecimate 2 0 ((List.range (1 * 2)).map (fun (i : ℕ) => (2 : ℚ) + (i : ℚ)))
      = (List.range 1).map (fun (j : ℕ) => (2 : ℚ) / (2 : ℚ) + (j : ℚ)) :=
  sample_counter_decimation 2 2 1 (by decide)

theorem deleteRowsAux_spec {α : Type} (idxs : List ℕ) (d : α) :
    ∀ (m : List α) (s : ℕ),
      deleteRowsAux idxs s m
        = ((List.range m.length).filter (fun i => !idxs.contains (s + i))).map
            (fun i => m.getD i d) := by
  intro m
  induction m with
  | nil => intro s; simp [deleteRowsAux]
  | cons r rest ih =>
    intro s
    have htail :
        ((List.range rest.length).filter (fun i => !idxs.contains (s + 1 + i))).map
            (fun i => rest.getD i d)
          = ((List.range rest.length).filter
                ((fun i => !idxs.contains (s + i)) ∘ Nat.succ)).map
              ((fun i => (r :: rest).getD i d) ∘ Nat.succ) := by
      rw [List.filter_congr (l := List.range rest.length)
          (fun i _ => by
            show (!idxs.contains (s + 1 + i)) = !idxs.contains (s + Nat.succ i)
            have he : s + 1 + i = s + Nat.succ i := by omega
            rw [he])]
      apply List.map_congr_left
      intro i _
      show rest.getD i d = (r :: rest).getD (Nat.succ i) d
      rfl
    rw [List.length_cons, List.range_succ_eq_map, List.filter_cons]
    by_cases hc : idxs.contains s
    · have hp : (!idxs.contains (s + 0)) = false := by
        rw [Nat.add_zero, hc]
        rfl
      simp only [deleteRowsAux]
      rw [if_pos hc, ih (s + 1), htail, hp, if_neg (by simp),
        List.filter_map, List.map_map]
    · have hcf : idxs.contains s = false := by
        cases hval : idxs.contains s with
        | false => rfl
        | true => exact absurd hval hc
      have hp : (!idxs.contains (s + 0)) = true := by
        rw [Nat.add_zero, hcf]
        rfl
      simp only [deleteRowsAux]
      rw [if_neg hc, ih (s + 1), htail, hp, if_pos rfl,
        List.filter_map, List.map_cons, List.map_map, List.getD_cons_zero]

theorem sub_rows_spec (eegCount : ℕ) (g : List ℚ → List ℚ) :
    ∀ (m : List (List ℚ)),
      (m.take eegCount).map g ++ m.drop eegCount
        = (List.range m.length).map
            (fun i => if i < eegCount then g (m.getD i []) else m.getD i []) := by
  induction eegCount generalizing g with
  | zero =>
    intro m
    simp only [List.take_zero, List.map_nil, List.nil_append, List.drop_zero]
    rw [show (fun i => if i < 0 then g (m.getD i []) else m.getD i [])
        = fun i => m.getD i [] from by funext i; simp]
    exact (map_getD_range [] m).symm
  | succ e ih =>
    intro m
    cases m with
    | nil => simp
    | cons r t =>
      simp only [List.take_succ_cons, List.map_cons, List.cons_append,
        List.drop_succ_cons, List.length_cons, List.range_succ_eq_map,
        List.map_map]
      rw [ih g t]
      refine congrArg₂ _ (by simp) ?_
      apply List.map_congr_left
      intro i _
      simp only [Function.comp, List.getD_cons_succ, Nat.succ_lt_succ_iff]

/-- C5 (amended): when the reference index set is nonempty, the per-block
reference step outputs, for each original row index not listed in the
removal set and in their original order, the original row minus the
columnwise arithmetic mean of the selected reference rows if the row is an
EEG row (index below `eegCount`), and the unchanged row otherwise (AUX
rows); the channel-properties snapshot accompanying the block is left
unchanged by this step (it is prepared once at channel-selection time, not
filtered per block). -/
theorem reference_step (eegCount : ℕ) (refIdx removeIdx : List ℕ)
    (m : List (List ℚ)) {α : Type} (props : List α)
    (href : refIdx ≠ []) :
    (refStep eegCount refIdx removeIdx m props).1
      = ((List.range m.length).filter (fun i => !removeIdx.contains i)).map
          (fun i => if i < eegCount
            then List.zipWith (fun u v => u - v) (m.getD i []) (meanRows refIdx m)
            else m.getD i [])
    ∧ (refStep eegCount refIdx removeIdx m props).2 = props := by
  have hlen : refIdx.length ≠ 0 := by
    intro h
    exact href (List.eq_nil_of_length_eq_zero h)
  rw [refStep, if_neg hlen]
  refine ⟨?_, rfl⟩
  dsimp only
  rw [sub_rows_spec eegCount
      (fun row => List.zipWith (fun u v => u - v) row (meanRows refIdx m)) m]
  by_cases hrem : removeIdx.length = 0
  · have hrem' : removeIdx = [] := List.eq_nil_of_length_eq_zero hrem
    subst hrem'
    rw [if_pos hrem]
    rw [show (fun i => !([] : List ℕ).contains i) = fun i => true from by
      funext i; rfl]
    rw [List.filter_true]
  · rw [if_neg hrem, deleteRows, deleteRowsAux_spec removeIdx [] _ 0]
    have hlen2 : ((List.range m.length).map
        (fun i => if i < eegCount
          then List.zipWith (fun u v => u - v) (m.getD i []) (meanRows refIdx m)
          else m.getD i [])).length = m.length := by
      simp
    rw [hlen2]
    rw [List.filter_congr (l := List.range m.length)
        (fun i _ => by rw [Nat.zero_add])]
    apply List.map_congr_left
    intro i hi
    have hin : i < m.length := List.mem_range.1 (List.mem_of_mem_filter hi)
    rw [getD_range_map [] _ m.length i hin]

/-- C5 counterexample: the per-block reference step leaves the
channel-properties snapshot untouched — with removal set `{0}` the matrix
loses row 0 but the properties list does not, contradicting the claim that
the step deletes the removed rows from the channel-properties snapshot as
well. -/
theorem reference_props_not_deleted :
    (refStep 2 [0] [0] [[1, 2], [3, 4]] ([10, 20] : List ℕ)).2
      ≠ deleteRows [0] ([10, 20] : List ℕ) := by
  decide

/-- Witness for C5 (amended) at a concrete input: three rows, reference row
0, removal row 1. -/
theorem reference_step_witness :
    (refStep 2 [0] [1] [[1, 2], [3, 4], [5, 6]] ([10, 20, 30] : List ℕ)).1
      = ((List.range ([[1, 2], [3, 4], [5, 6]] : List (List ℚ)).length).filter
          (fun i => !([1] : List ℕ).contains i)).map
          (fun i => if i < 2
            then List.zipWith (fun u v => u - v)
              (([[1, 2], [3, 4], [5, 6]] : List (List ℚ)).getD i [])
              (meanRows [0] [[1, 2], [3, 4], [5, 6]])
            else ([[1, 2], [3, 4], [5, 6]] : List (List ℚ)).getD i [])
    ∧ (refStep 2 [0] [1] [[1, 2], [3, 4], [5, 6]] ([10, 20, 30] : List ℕ)).2
      = [10, 20, 30] :=
  reference_step 2 [0] [1] [[1, 2], [3, 4], [5, 6]] [10, 20, 30] (by decide)

end PyCorder
